import Mathlib

/-!
Verification of the XCSoar software pixel-compositing engine
(`src/Screen/Memory/PixelOperations.hpp`) and of the XCOM760 serial
radio driver (`src/Device/Driver/XCOM760.cpp`).

Pixels, channels and coverage samples are modelled as `Nat` values;
widened C `int` arithmetic is modelled as `Int` with an explicit
arithmetic shift (floor division by 256) and an explicit narrowing
conversion back to the unsigned 8-bit channel range.  Framebuffers are
modelled as functions `Nat → π` from pixel index to pixel value, with
pointwise update.
-/

/-- C arithmetic shift right by 8 on a widened signed `int`
    (`x >> 8` in `PixelAlphaOperation::operator()` and friends):
    floor division by 256. -/
def asr8 (x : Int) : Int := Int.fdiv x 256

/-- Narrowing conversion from C `int` back to an unsigned 8-bit channel
    value: two's-complement wraparound, i.e. reduction modulo 256. -/
def narrowU8 (x : Int) : Nat := (x.emod 256).toNat

/-- Widened body of `PixelAlphaOperation<T>::operator()(T a, T b)`:
    `a + ((int(b - a) * alpha) >> 8)` computed entirely in `int`. -/
def alphaBlendInt (alpha a b : Int) : Int := a + asr8 ((b - a) * alpha)

/-- `PixelAlphaOperation<T>::operator()` on 8-bit channels: the widened
    `int` result narrowed back to the channel type on return. -/
def pixelAlphaOperation (alpha a b : Nat) : Nat :=
  narrowU8 (alphaBlendInt (alpha : Int) (a : Int) (b : Int))

/-- `PixelBitNot<integer_type>::operator()`: bitwise complement `~x`
    over a `w`-bit unsigned packed-integer representation. -/
def pixelBitNot (w x : Nat) : Nat := 2 ^ w - 1 - x

/-- `ColorKey<PixelTraits>::operator()(c)`: the predicate `c != key`. -/
def colorKey (key c : Nat) : Bool := c != key

/-- `ConditionalWritePixel<PixelTraits, Check>::WritePixel(p, c)`:
    the destination pixel value after the call — `c` is committed only
    when the check holds, otherwise the destination stays untouched. -/
def conditionalWritePixel {π : Type} (check : π → Bool) (dest c : π) : π :=
  if check c then c else dest

/-- `UnaryWritePixel<...>::WritePixel(p, c)` as a write strategy: the
    operation is applied to the source color only; the prior destination
    value is never read. -/
def unaryWritePixel {π σ : Type} (op : σ → π) : π → σ → π :=
  fun _ c => op c

/-- `BinaryWritePixel<...>::WritePixel(p, c)` as a write strategy:
    read-modify-write, the operation sees the current destination pixel
    and the source color. -/
def binaryWritePixel {π σ : Type} (op : π → σ → π) : π → σ → π :=
  fun d c => op d c

/-- `TransparentInvertPixelOperations<PixelTraits>::WritePixel(p, c)`:
    the destination pixel value after the call — the complement of `c`
    (through the packed-integer adapter) is written only when `c` differs
    from the key. -/
def transparentInvertWritePixel (w key c dest : Nat) : Nat :=
  if c ≠ key then pixelBitNot w c else dest

/-- `PixelOpaqueText<PixelTraits, SPT>::operator()(x)`: `background_color`
    when the source format classifies `x` as black, else `text_color`.
    The classifying predicate `SPT::IsBlack` is a parameter. -/
def pixelOpaqueText {σ π : Type} (isBlack : σ → Bool) (background textColor : π) (x : σ) : π :=
  if isBlack x then background else textColor

/-- Modelled from the spec: `PixelTraits::TransformChannels` on two colors
    (the Format Descriptor's per-channel transform, external to `src/`)
    applies a scalar function independently to every channel pair and
    reassembles the result, preserving channel count and order.  A color
    is modelled as its list of channels. -/
def transformChannels2 (f : Nat → Nat → Nat) (a b : List Nat) : List Nat :=
  List.zipWith f a b

/-- `PixelOpaqueAlpha<PixelTraits>::operator()(alpha)`: per channel,
    `a + ((int(b - a) * int(alpha.GetLuminosity())) >> 8)`, i.e. the
    alpha-blend formula between the two construction-time endpoint
    colors driven by the coverage sample `s`. -/
def pixelOpaqueAlpha (a b : List Nat) (s : Nat) : List Nat :=
  transformChannels2 (fun ca cb => pixelAlphaOperation s ca cb) a b

/-- Pointwise update of a framebuffer modelled as `Nat → π`. -/
def bufUpdate {π : Type} (buf : Nat → π) (i : Nat) (v : π) : Nat → π :=
  fun j => if j = i then v else buf j

/-- `PerPixelOperations::FillPixels(p, n, c)`.  Modelled from the spec:
    `PixelTraits::ForHorizontal` (external to `src/`) invokes the supplied
    function exactly `n` times, once per pixel address, in increasing
    address order; each invocation performs the active write strategy `w`
    at positions `p, p+1, ..., p+n-1`. -/
def fillPixels {π σ : Type} (w : π → σ → π) (buf : Nat → π) (p n : Nat) (c : σ) : Nat → π :=
  (List.range n).foldl (fun b k => bufUpdate b (p + k) (w (b (p + k)) c)) buf

/-- Observable memory events of a copy loop: a read of source pixel `i`
    or a write of destination pixel `i`. -/
inductive PixelEvent where
  | readSrc (i : Nat)
  | writeDest (i : Nat)

/-- `PerPixelOperations::CopyPixels(p, src, n)`: the loop
    `for i in [0, n): WritePixel(Next(p, i), ReadPixel(Next(src, i)))`,
    instrumented with the source-read and destination-write events it
    performs, in program order.  `Next`/`ReadPixel` (external to `src/`)
    are modelled from the spec as indexing into the buffers. -/
def copyPixelsTr {π σ : Type} (w : π → σ → π) (buf : Nat → π) (src : Nat → σ) (n : Nat) :
    (Nat → π) × List PixelEvent :=
  (List.range n).foldl
    (fun st i =>
      (bufUpdate st.1 i (w (st.1 i) (src i)),
       st.2 ++ [PixelEvent.readSrc i, PixelEvent.writeDest i]))
    (buf, [])

/-- Index of a source-read event, if any. -/
def readIndex : PixelEvent → Option Nat
  | PixelEvent.readSrc i => some i
  | PixelEvent.writeDest _ => none

/-- Index of a destination-write event, if any. -/
def writeIndex : PixelEvent → Option Nat
  | PixelEvent.readSrc _ => none
  | PixelEvent.writeDest i => some i

/-- Zero-padded rendering of `printf` conversion `%03u`. -/
def pad3 (n : Nat) : String :=
  if n < 10 then "00" ++ toString n
  else if n < 100 then "0" ++ toString n
  else toString n

/-- The `sprintf` format shared by both frequency commands of
    `XCOM760Device`: `"%u.%03u"` applied to `khz / 1000` and
    `khz % 1000`, preceded by the command word and followed by CR LF. -/
def formatFrequencyCommand (cmd : String) (khz : Nat) : String :=
  cmd ++ toString (khz / 1000) ++ "." ++ pad3 (khz % 1000) ++ "\r\n"

/-- `XCOM760Device::PutActiveFrequency`: formats the `$TXAF` command and
    writes it to the port (modelled as the list of strings written so
    far), then returns `true`. -/
def putActiveFrequency (port : List String) (khz : Nat) : List String × Bool :=
  (port ++ [formatFrequencyCommand "$TXAF=" khz], true)

/-- `XCOM760Device::PutStandbyFrequency`: formats the `$TXSF` command
    into the local buffer `szTmp` but never calls `port->Write`, and
    returns `true`; the port is left unchanged. -/
def putStandbyFrequency (port : List String) (khz : Nat) : List String × Bool :=
  let _szTmp := formatFrequencyCommand "$TXSF=" khz
  (port, true)

/-- Arithmetic shift right by 8 agrees with Euclidean division by 256. -/
lemma asr8_eq (x : Int) : asr8 x = x / 256 :=
  Int.fdiv_eq_ediv x (by norm_num)

/-- The widened alpha-blend value always stays between the two channel
    endpoints, for any alpha in `[0, 255]`. -/
lemma alphaBlendInt_bounds (alpha a b : Int) (h0 : 0 ≤ alpha) (h1 : alpha ≤ 255) :
    min a b ≤ alphaBlendInt alpha a b ∧ alphaBlendInt alpha a b ≤ max a b := by
  unfold alphaBlendInt
  rw [asr8_eq]
  rcases le_total a b with hab | hab
  · have hd : 0 ≤ b - a := by omega
    have hq0 : 0 ≤ (b - a) * alpha / 256 :=
      Int.ediv_nonneg (mul_nonneg hd h0) (by norm_num)
    have hqd : (b - a) * alpha / 256 < (b - a) + 1 := by
      rw [Int.ediv_lt_iff_lt_mul (by norm_num)]
      nlinarith
    constructor
    · rw [min_eq_left hab]; omega
    · rw [max_eq_right hab]; omega
  · have hd : b - a ≤ 0 := by omega
    have hq0 : (b - a) * alpha / 256 < 1 := by
      rw [Int.ediv_lt_iff_lt_mul (by norm_num)]
      nlinarith
    have hqd : b - a ≤ (b - a) * alpha / 256 := by
      rw [Int.le_ediv_iff_mul_le (by norm_num)]
      nlinarith
    constructor
    · rw [min_eq_right hab]; omega
    · rw [max_eq_left hab]; omega

/-- Narrowing is the identity on values already in the 8-bit range. -/
lemma narrowU8_of_range (x : Int) (h0 : 0 ≤ x) (h1 : x < 256) :
    (narrowU8 x : Int) = x := by
  unfold narrowU8
  have : x.emod 256 = x := Int.emod_eq_of_lt h0 h1
  rw [this]
  exact Int.toNat_of_nonneg h0

/-- One unrolling of the fill loop. -/
lemma fillPixels_succ {π σ : Type} (w : π → σ → π) (buf : Nat → π) (p n : Nat) (c : σ) :
    fillPixels w buf p (n + 1) c =
      bufUpdate (fillPixels w buf p n c) (p + n)
        (w (fillPixels w buf p n c (p + n)) c) := by
  unfold fillPixels
  rw [List.range_succ, List.foldl_append, List.foldl_cons, List.foldl_nil]

/-- Pointwise description of `FillPixels`: each of the `n` positions is
    written exactly once, from its original destination value, and every
    other position is untouched. -/
lemma fillPixels_apply {π σ : Type} (w : π → σ → π) (buf : Nat → π) (p : Nat) (c : σ) :
    ∀ n j, fillPixels w buf p n c j =
      if p ≤ j ∧ j < p + n then w (buf j) c else buf j := by
  intro n
  induction n with
  | zero =>
    intro j
    have hnot : ¬(p ≤ j ∧ j < p) := by omega
    simp [fillPixels, hnot]
  | succ n ih =>
    intro j
    rw [fillPixels_succ]
    unfold bufUpdate
    by_cases hj : j = p + n
    · subst hj
      rw [if_pos rfl, ih (p + n)]
      have hnot : ¬(p ≤ p + n ∧ p + n < p + n) := by omega
      have hyes : p ≤ p + n ∧ p + n < p + (n + 1) := by omega
      rw [if_neg hnot, if_pos hyes]
    · rw [if_neg hj, ih j]
      by_cases hin : p ≤ j ∧ j < p + n
      · have hyes : p ≤ j ∧ j < p + (n + 1) := by omega
        rw [if_pos hin, if_pos hyes]
      · have hno : ¬(p ≤ j ∧ j < p + (n + 1)) := by omega
        rw [if_neg hin, if_neg hno]

/-- One unrolling of the copy loop. -/
lemma copyPixelsTr_succ {π σ : Type} (w : π → σ → π) (buf : Nat → π) (src : Nat → σ) (n : Nat) :
    copyPixelsTr w buf src (n + 1) =
      (bufUpdate (copyPixelsTr w buf src n).1 n
         (w ((copyPixelsTr w buf src n).1 n) (src n)),
       (copyPixelsTr w buf src n).2 ++ [PixelEvent.readSrc n, PixelEvent.writeDest n]) := by
  unfold copyPixelsTr
  rw [List.range_succ, List.foldl_append, List.foldl_cons, List.foldl_nil]

/-- Pointwise description of the destination buffer after `CopyPixels`:
    position `i < n` holds the write strategy applied to the original
    destination pixel `i` and source pixel `i`; positions `≥ n` are
    untouched. -/
lemma copyPixelsTr_fst {π σ : Type} (w : π → σ → π) (buf : Nat → π) (src : Nat → σ) :
    ∀ n j, (copyPixelsTr w buf src n).1 j =
      if j < n then w (buf j) (src j) else buf j := by
  intro n
  induction n with
  | zero =>
    intro j
    simp [copyPixelsTr]
  | succ n ih =>
    intro j
    rw [copyPixelsTr_succ]
    dsimp only
    unfold bufUpdate
    by_cases hj : j = n
    · subst hj
      rw [if_pos rfl, ih j, if_neg (lt_irrefl j), if_pos (Nat.lt_succ_self j)]
    · rw [if_neg hj, ih j]
      by_cases hin : j < n
      · have hyes : j < n + 1 := by omega
        rw [if_pos hin, if_pos hyes]
      · have hno : ¬ j < n + 1 := by omega
        rw [if_neg hin, if_neg hno]

/-- The event trace of `CopyPixels` is, in program order, a source read
    followed by a destination write for each index `0, 1, ..., n-1`. -/
lemma copyPixelsTr_snd {π σ : Type} (w : π → σ → π) (buf : Nat → π) (src : Nat → σ) :
    ∀ n, (copyPixelsTr w buf src n).2 =
      (List.range n).flatMap (fun i => [PixelEvent.readSrc i, PixelEvent.writeDest i]) := by
  intro n
  induction n with
  | zero =>
    simp [copyPixelsTr]
  | succ n ih =>
    rw [copyPixelsTr_succ]
    simp only [ih, List.range_succ, List.flatMap_append, List.flatMap_cons, List.flatMap_nil,
      List.append_nil]

/-- Projecting the source-read indices out of the canonical trace gives
    back `0, 1, ..., n-1` in order. -/
lemma trace_filterMap_readIndex (n : Nat) :
    (((List.range n).flatMap
        (fun i => [PixelEvent.readSrc i, PixelEvent.writeDest i])).filterMap readIndex) =
      List.range n := by
  induction n with
  | zero => simp
  | succ n ih =>
    rw [List.range_succ, List.flatMap_append, List.filterMap_append, ih]
    simp [readIndex, List.range_succ]

/-- Projecting the destination-write indices out of the canonical trace
    gives back `0, 1, ..., n-1` in order. -/
lemma trace_filterMap_writeIndex (n : Nat) :
    (((List.range n).flatMap
        (fun i => [PixelEvent.readSrc i, PixelEvent.writeDest i])).filterMap writeIndex) =
      List.range n := by
  induction n with
  | zero => simp
  | succ n ih =>
    rw [List.range_succ, List.flatMap_append, List.filterMap_append, ih]
    simp [writeIndex, List.range_succ]

/-- Indexing a `zipWith` under in-range default lookups. -/
lemma zipWith_getD (f : Nat → Nat → Nat) :
    ∀ (a b : List Nat) (i : Nat), i < a.length → i < b.length →
      (List.zipWith f a b).getD i 0 = f (a.getD i 0) (b.getD i 0) := by
  intro a
  induction a with
  | nil =>
    intro b i h _
    simp at h
  | cons x xs ih =>
    intro b i hi hb
    cases b with
    | nil => simp at hb
    | cons y ys =>
      cases i with
      | zero => simp
      | succ i =>
        simp only [List.zipWith_cons_cons, List.getD_cons_succ]
        exact ih ys i (by simpa using hi) (by simpa using hb)

/-- For 8-bit channels and alpha the narrowing conversion at the end of
    `PixelAlphaOperation::operator()` is the identity: the committed
    channel equals the widened `int` value. -/
lemma pixelAlphaOperation_eq_int (alpha a b : Nat)
    (ha : a ≤ 255) (hb : b ≤ 255) (hal : alpha ≤ 255) :
    (pixelAlphaOperation alpha a b : Int) = alphaBlendInt (alpha : Int) (a : Int) (b : Int) := by
  have hbnd := alphaBlendInt_bounds (alpha : Int) (a : Int) (b : Int)
    (by positivity) (by exact_mod_cast hal)
  unfold pixelAlphaOperation
  apply narrowU8_of_range
  · have : (0 : Int) ≤ min (a : Int) (b : Int) := by
      simp only [le_min_iff]
      constructor <;> positivity
    omega
  · have : max (a : Int) (b : Int) < 256 := by
      simp only [max_lt_iff]
      constructor <;> omega
    omega

/-- Claim C1: for every pair of channel values `a` (destination) and `b`
    (source) and every alpha in `[0, 255]`, `PixelAlphaOperation` returns
    exactly `a + ((b - a) * alpha) >> 8` computed in widened signed
    integer arithmetic; in particular alpha 0 returns `a`, alpha 255
    returns the exact integer formula (not the idealized value `b`), and
    blending destination 0 toward source 100 at alpha 128 yields 50. -/
theorem alphaBlend_exact_formula (alpha a b : Nat)
    (ha : a ≤ 255) (hb : b ≤ 255) (hal : alpha ≤ 255) :
    (pixelAlphaOperation alpha a b : Int) =
        (a : Int) + asr8 (((b : Int) - (a : Int)) * (alpha : Int))
    ∧ pixelAlphaOperation 0 a b = a
    ∧ (pixelAlphaOperation 255 a b : Int) =
        (a : Int) + asr8 (((b : Int) - (a : Int)) * 255)
    ∧ pixelAlphaOperation 128 0 100 = 50 := by
  refine ⟨pixelAlphaOperation_eq_int alpha a b ha hb hal, ?_, ?_, by decide⟩
  · have h := pixelAlphaOperation_eq_int 0 a b ha hb (by omega)
    have h2 : alphaBlendInt ((0 : Nat) : Int) (a : Int) (b : Int) = (a : Int) := by
      unfold alphaBlendInt
      rw [asr8_eq]
      push_cast
      simp
    exact_mod_cast h.trans h2
  · have h := pixelAlphaOperation_eq_int 255 a b ha hb le_rfl
    simpa [alphaBlendInt] using h

/-- Witness for C1 at destination 0, source 100, alpha 128. -/
theorem alphaBlend_exact_formula_witness :
    (pixelAlphaOperation 128 0 100 : Int) = (0 : Int) + asr8 (((100 : Int) - 0) * 128)
    ∧ pixelAlphaOperation 0 0 100 = 0
    ∧ (pixelAlphaOperation 255 0 100 : Int) = (0 : Int) + asr8 (((100 : Int) - 0) * 255)
    ∧ pixelAlphaOperation 128 0 100 = 50 := by
  have h := alphaBlend_exact_formula 128 0 100 (by decide) (by decide) (by decide)
  exact ⟨h.1, h.2.1, h.2.2.1, h.2.2.2⟩

/-- Claim C5: for all channel values and alpha in `[0, 255]`, the alpha
    blend result lies within `[min(a,b), max(a,b)]` (so in particular
    within one unit of truncation error of that interval), and the
    widened intermediate product `(b - a) * alpha` stays strictly inside
    the signed 32-bit `int` range, so it never overflows before the
    final shift narrows the result back to the channel range. -/
theorem alphaBlend_bounds_no_overflow (alpha a b : Nat)
    (ha : a ≤ 255) (hb : b ≤ 255) (hal : alpha ≤ 255) :
    min a b ≤ pixelAlphaOperation alpha a b
    ∧ pixelAlphaOperation alpha a b ≤ max a b
    ∧ -(2 ^ 31) ≤ ((b : Int) - (a : Int)) * (alpha : Int)
    ∧ ((b : Int) - (a : Int)) * (alpha : Int) < 2 ^ 31 := by
  have heq := pixelAlphaOperation_eq_int alpha a b ha hb hal
  have hbnd := alphaBlendInt_bounds (alpha : Int) (a : Int) (b : Int)
    (by positivity) (by exact_mod_cast hal)
  have ha' : (a : Int) ≤ 255 := by exact_mod_cast ha
  have hb' : (b : Int) ≤ 255 := by exact_mod_cast hb
  have hal' : (alpha : Int) ≤ 255 := by exact_mod_cast hal
  have ha0 : (0 : Int) ≤ (a : Int) := by positivity
  have hb0 : (0 : Int) ≤ (b : Int) := by positivity
  have hal0 : (0 : Int) ≤ (alpha : Int) := by positivity
  refine ⟨?_, ?_, by nlinarith, by nlinarith⟩
  · have h1 : (min a b : Int) ≤ (pixelAlphaOperation alpha a b : Int) := by
      rw [heq]
      simpa [Nat.cast_min] using hbnd.1
    exact_mod_cast h1
  · have h1 : (pixelAlphaOperation alpha a b : Int) ≤ (max a b : Int) := by
      rw [heq]
      simpa [Nat.cast_max] using hbnd.2
    exact_mod_cast h1

/-- Witness for C5 at destination 30, source 200, alpha 100. -/
theorem alphaBlend_bounds_no_overflow_witness :
    min 30 200 ≤ pixelAlphaOperation 100 30 200
    ∧ pixelAlphaOperation 100 30 200 ≤ max 30 200
    ∧ -(2 ^ 31) ≤ ((200 : Int) - 30) * 100
    ∧ ((200 : Int) - 30) * 100 < 2 ^ 31 :=
  alphaBlend_bounds_no_overflow 100 30 200 (by decide) (by decide) (by decide)

/-- Claim C6: applying `PixelBitNot` twice over a `w`-bit packed-integer
    representation returns the original value, for every representable
    packed integer. -/
theorem pixelBitNot_involution (w x : Nat) (h : x < 2 ^ w) :
    pixelBitNot w (pixelBitNot w x) = x := by
  have h1 : 1 ≤ 2 ^ w := Nat.one_le_two_pow
  unfold pixelBitNot
  omega

/-- Witness for C6 at width 8 and packed integer 170. -/
theorem pixelBitNot_involution_witness :
    170 < 2 ^ 8 ∧ pixelBitNot 8 (pixelBitNot 8 170) = 170 :=
  ⟨by decide, pixelBitNot_involution 8 170 (by decide)⟩

/-- Claim C7: `PixelOpaqueText` maps every source pixel classified black
    by the source format's predicate to the background color, every
    other source pixel to the text color, and no third outcome occurs
    for any input. -/
theorem pixelOpaqueText_binary {σ π : Type} (isBlack : σ → Bool) (bg tc : π) (x : σ) :
    (isBlack x = true → pixelOpaqueText isBlack bg tc x = bg)
    ∧ (isBlack x = false → pixelOpaqueText isBlack bg tc x = tc)
    ∧ (pixelOpaqueText isBlack bg tc x = bg ∨ pixelOpaqueText isBlack bg tc x = tc) := by
  cases hx : isBlack x <;> simp [pixelOpaqueText, hx]

/-- Witness for C7 with the predicate classifying 0 as black. -/
theorem pixelOpaqueText_binary_witness :
    pixelOpaqueText (fun n : Nat => n == 0) 7 9 0 = 7
    ∧ pixelOpaqueText (fun n : Nat => n == 0) 7 9 1 = 9 :=
  ⟨(pixelOpaqueText_binary (fun n : Nat => n == 0) 7 9 0).1 (by decide),
   (pixelOpaqueText_binary (fun n : Nat => n == 0) 7 9 1).2.1 (by decide)⟩

/-- Claim C8: `TransparentInvertPixelOperations::WritePixel` writes the
    bitwise complement of the source color exactly when it differs from
    the key, and leaves the destination pixel untouched when it equals
    the key. -/
theorem transparentInvert_spec (w key c dest : Nat) :
    (c ≠ key → transparentInvertWritePixel w key c dest = pixelBitNot w c)
    ∧ (c = key → transparentInvertWritePixel w key c dest = dest) := by
  unfold transparentInvertWritePixel
  constructor
  · intro h
    rw [if_pos h]
  · intro h
    rw [if_neg (not_not_intro h)]

/-- Witness for C8 at width 8, key 10, source colors 200 and 10. -/
theorem transparentInvert_spec_witness :
    transparentInvertWritePixel 8 10 200 5 = pixelBitNot 8 200
    ∧ transparentInvertWritePixel 8 10 10 5 = 5 :=
  ⟨(transparentInvert_spec 8 10 200 5).1 (by decide),
   (transparentInvert_spec 8 10 10 5).2 rfl⟩

/-- Claim C2: through `ConditionalWritePixel` with the `ColorKey(key)`
    predicate, the source color is committed exactly when it differs
    from the key, and a source color equal to the key leaves the
    destination pixel byte-for-byte unchanged; copying the source row
    `[10, 200, 10, 250]` with key 10 over destination `[5, 5, 5, 5]`
    yields `[5, 200, 5, 250]`. -/
theorem conditionalWrite_colorKey_spec (key c d : Nat) :
    (c ≠ key → conditionalWritePixel (colorKey key) d c = c)
    ∧ (c = key → conditionalWritePixel (colorKey key) d c = d)
    ∧ (∀ j, j < 4 →
        (copyPixelsTr (conditionalWritePixel (colorKey 10)) (fun _ => 5)
            (fun i => List.getD [10, 200, 10, 250] i 0) 4).1 j =
          List.getD [5, 200, 5, 250] j 0) := by
  refine ⟨?_, ?_, by decide⟩
  · intro h
    have hc : colorKey key c = true := by
      unfold colorKey
      exact bne_iff_ne.mpr h
    unfold conditionalWritePixel
    rw [hc]
    rfl
  · intro h
    have hc : colorKey key c = false := by
      unfold colorKey
      simp [h]
    unfold conditionalWritePixel
    rw [hc]
    rfl

/-- Witness for C2 at key 10, with source colors 200 and 10 over a
    destination pixel holding 5, and position 1 of the row scenario. -/
theorem conditionalWrite_colorKey_spec_witness :
    conditionalWritePixel (colorKey 10) 5 200 = 200
    ∧ conditionalWritePixel (colorKey 10) 5 10 = 5
    ∧ (copyPixelsTr (conditionalWritePixel (colorKey 10)) (fun _ => 5)
          (fun i => List.getD [10, 200, 10, 250] i 0) 4).1 1 = 200 :=
  ⟨(conditionalWrite_colorKey_spec 10 200 5).1 (by decide),
   (conditionalWrite_colorKey_spec 10 10 5).2.1 rfl,
   (conditionalWrite_colorKey_spec 10 0 0).2.2 1 (by decide)⟩

/-- Counterexample for C3: under the blend-write (binary) alpha-blend
    strategy at alpha 128, filling one pixel that holds 0 with color
    100 once yields 50, but filling twice yields 75 — so `FillPixels`
    applied twice is not the same as applying it once for every engine
    instantiation, and the committed value is not a pure function of
    the fill color alone. -/
theorem fillPixels_blend_not_idempotent :
    fillPixels (binaryWritePixel (fun d c => pixelAlphaOperation 128 d c))
        (fillPixels (binaryWritePixel (fun d c => pixelAlphaOperation 128 d c))
          (fun _ => 0) 0 1 100)
        0 1 100 0 = 75
    ∧ fillPixels (binaryWritePixel (fun d c => pixelAlphaOperation 128 d c))
        (fun _ => 0) 0 1 100 0 = 50 := by
  constructor <;> decide

/-- Claim C3 (amended): for every engine instantiation whose write
    strategy ignores the prior destination value (the direct-write /
    unary strategies), `FillPixels(p, n, c)` applied twice in a row
    leaves the buffer identical to applying it once, and the value
    committed at each of the `n` positions is `op(c)`, a pure function
    of `c` alone, independent of the prior destination contents.
    Blend-write (binary) instantiations violate this. -/
theorem fillPixels_direct_idempotent {π σ : Type} (op : σ → π)
    (buf : Nat → π) (p n : Nat) (c : σ) :
    fillPixels (unaryWritePixel op) (fillPixels (unaryWritePixel op) buf p n c) p n c
      = fillPixels (unaryWritePixel op) buf p n c
    ∧ ∀ k, k < n → fillPixels (unaryWritePixel op) buf p n c (p + k) = op c := by
  have key : ∀ (B : Nat → π) (j : Nat),
      fillPixels (unaryWritePixel op) B p n c j =
        if p ≤ j ∧ j < p + n then op c else B j := by
    intro B j
    rw [fillPixels_apply]
    rfl
  constructor
  · funext j
    rw [key, key]
    split_ifs <;> rfl
  · intro k hk
    rw [key]
    have hin : p ≤ p + k ∧ p + k < p + n := by omega
    rw [if_pos hin]

/-- Witness for C3 (amended) with the identity operation at offset 3,
    span length 2, fill color 7. -/
theorem fillPixels_direct_idempotent_witness :
    fillPixels (unaryWritePixel (fun c : Nat => c))
        (fillPixels (unaryWritePixel (fun c : Nat => c)) (fun _ => 0) 3 2 7) 3 2 7
      = fillPixels (unaryWritePixel (fun c : Nat => c)) (fun _ => 0) 3 2 7
    ∧ fillPixels (unaryWritePixel (fun c : Nat => c)) (fun _ => 0) 3 2 7 (3 + 1) = 7 :=
  ⟨(fillPixels_direct_idempotent (fun c : Nat => c) (fun _ => 0) 3 2 7).1,
   (fillPixels_direct_idempotent (fun c : Nat => c) (fun _ => 0) 3 2 7).2 1 (by decide)⟩

/-- Claim C4: `CopyPixels(dest, src, n)` performs, in program order, a
    source read followed by a destination write for each index
    `0, 1, ..., n-1` — exactly `n` source reads and `n` destination
    writes, in strictly increasing index order with no reordering;
    destination position `j < n` receives the active write strategy
    applied to its original value and source pixel `j`, positions `≥ n`
    are untouched, and `n = 0` performs no reads and no writes. -/
theorem copyPixels_span_contract {π σ : Type} (w : π → σ → π)
    (buf : Nat → π) (src : Nat → σ) (n : Nat) :
    (copyPixelsTr w buf src n).2 =
        (List.range n).flatMap (fun i => [PixelEvent.readSrc i, PixelEvent.writeDest i])
    ∧ ((copyPixelsTr w buf src n).2.filterMap readIndex) = List.range n
    ∧ ((copyPixelsTr w buf src n).2.filterMap writeIndex) = List.range n
    ∧ ((copyPixelsTr w buf src n).2.filterMap readIndex).length = n
    ∧ ((copyPixelsTr w buf src n).2.filterMap writeIndex).length = n
    ∧ List.Pairwise (fun x y => x < y) ((copyPixelsTr w buf src n).2.filterMap readIndex)
    ∧ (∀ j, j < n → (copyPixelsTr w buf src n).1 j = w (buf j) (src j))
    ∧ (∀ j, n ≤ j → (copyPixelsTr w buf src n).1 j = buf j)
    ∧ (copyPixelsTr w buf src 0).2 = [] := by
  have hsnd := copyPixelsTr_snd w buf src n
  refine ⟨hsnd, ?_, ?_, ?_, ?_, ?_, ?_, ?_, ?_⟩
  · rw [hsnd]
    exact trace_filterMap_readIndex n
  · rw [hsnd]
    exact trace_filterMap_writeIndex n
  · rw [hsnd, trace_filterMap_readIndex n]
    exact List.length_range n
  · rw [hsnd, trace_filterMap_writeIndex n]
    exact List.length_range n
  · rw [hsnd, trace_filterMap_readIndex n]
    exact List.pairwise_lt_range n
  · intro j hj
    rw [copyPixelsTr_fst, if_pos hj]
  · intro j hj
    have hno : ¬ j < n := by omega
    rw [copyPixelsTr_fst, if_neg hno]
  · rw [copyPixelsTr_snd w buf src 0]
    rfl

/-- Witness for C4 with the pass-through strategy on a two-pixel copy. -/
theorem copyPixels_span_contract_witness :
    (copyPixelsTr (fun (_ : Nat) (c : Nat) => c) (fun _ => 0) (fun i => i) 2).1 1 = 1
    ∧ (copyPixelsTr (fun (_ : Nat) (c : Nat) => c) (fun _ => 0) (fun i => i) 2).1 5 = 0 :=
  ⟨(copyPixels_span_contract (fun (_ : Nat) (c : Nat) => c) (fun _ => 0) (fun i => i) 2).2.2.2.2.2.2.1
      1 (by decide),
   (copyPixels_span_contract (fun (_ : Nat) (c : Nat) => c) (fun _ => 0) (fun i => i) 2).2.2.2.2.2.2.2.1
      5 (by decide)⟩

/-- Claim C9: the pixel committed by the Opaque-Alpha operation depends
    only on the coverage sample and the two construction-time endpoint
    colors — two runs over destinations holding different prior values
    commit the same pixel — and each channel equals
    `colorA + ((colorB - colorA) * s) >> 8` in widened arithmetic. -/
theorem opaqueAlpha_dest_independent (colA colB d1 d2 : List Nat) (s : Nat) :
    unaryWritePixel (pixelOpaqueAlpha colA colB) d1 s =
      unaryWritePixel (pixelOpaqueAlpha colA colB) d2 s
    ∧ ∀ i, i < colA.length → i < colB.length →
        (pixelOpaqueAlpha colA colB s).getD i 0 =
          narrowU8 ((colA.getD i 0 : Int) +
            asr8 (((colB.getD i 0 : Int) - (colA.getD i 0 : Int)) * (s : Int))) := by
  constructor
  · rfl
  · intro i h1 h2
    unfold pixelOpaqueAlpha transformChannels2
    rw [zipWith_getD _ colA colB i h1 h2]
    rfl

/-- Witness for C9: endpoints 0 and 100, coverage sample 128, two
    different prior destination pixels. -/
theorem opaqueAlpha_dest_independent_witness :
    unaryWritePixel (pixelOpaqueAlpha [0] [100]) [1] 128 =
      unaryWritePixel (pixelOpaqueAlpha [0] [100]) [2] 128
    ∧ (pixelOpaqueAlpha [0] [100] 128).getD 0 0 =
        narrowU8 ((0 : Int) + asr8 (((100 : Int) - 0) * 128)) :=
  ⟨(opaqueAlpha_dest_independent [0] [100] [1] [2] 128).1,
   (opaqueAlpha_dest_independent [0] [100] [1] [2] 128).2 0 (by decide) (by decide)⟩

/-- Claim C10: `XCOM760Device::PutStandbyFrequency` leaves the port
    state unchanged for every frequency yet returns `true`, while
    `PutActiveFrequency` appends its formatted command to the port
    before returning `true`. -/
theorem putStandbyFrequency_no_port_write (port : List String) (khz : Nat) :
    (putStandbyFrequency port khz).1 = port
    ∧ (putStandbyFrequency port khz).2 = true
    ∧ (putActiveFrequency port khz).1 = port ++ [formatFrequencyCommand "$TXAF=" khz]
    ∧ (putActiveFrequency port khz).2 = true :=
  ⟨rfl, rfl, rfl, rfl⟩
